import Mathlib

/-!
Shallow embedding of the SAWE minimal agent workflow engine
(src/engine.py, src/tools.py) and proofs about it.

Python dictionaries over dynamically typed values are embedded as
association lists of string keys and `Val` values, kept in insertion
order exactly as a CPython dict is; `Dict.set` overwrites the first
(and, on dicts, only) occurrence of a key in place and appends fresh
keys at the end, which is precisely the CPython assignment semantics,
and `Dict.update` folds `Dict.set` over the update mapping just as
`dict.update` does.
-/

set_option autoImplicit false

namespace SAWE

/-- Embedded Python values: the value universe that actually flows
through the engine and the shipped tools (None, bool, int, str, list). -/
inductive Val where
  | vNone : Val
  | vBool : Bool → Val
  | vInt : Int → Val
  | vStr : String → Val
  | vList : List Val → Val

mutual
/-- Boolean equality on embedded values (structural, as Python equality
behaves on this fragment for values of equal type). -/
def Val.beq : Val → Val → Bool
  | .vNone, .vNone => true
  | .vBool a, .vBool b => a == b
  | .vInt a, .vInt b => a == b
  | .vStr a, .vStr b => a == b
  | .vList a, .vList b => Val.beqList a b
  | _, _ => false

/-- Elementwise `Val.beq` on lists. -/
def Val.beqList : List Val → List Val → Bool
  | [], [] => true
  | x :: xs, y :: ys => Val.beq x y && Val.beqList xs ys
  | _, _ => false
end

mutual
theorem Val.beq_refl : ∀ v : Val, Val.beq v v = true
  | .vNone => rfl
  | .vBool a => by simp [Val.beq]
  | .vInt a => by simp [Val.beq]
  | .vStr a => by simp [Val.beq]
  | .vList a => by simpa [Val.beq] using Val.beqList_refl a

theorem Val.beqList_refl : ∀ xs : List Val, Val.beqList xs xs = true
  | [] => rfl
  | x :: xs => by
      simp only [Val.beqList, Bool.and_eq_true]
      exact ⟨Val.beq_refl x, Val.beqList_refl xs⟩
end

mutual
theorem Val.eq_of_beq : ∀ {v w : Val}, Val.beq v w = true → v = w
  | .vNone, .vNone, _ => rfl
  | .vBool a, .vBool b, h => by
      simp only [Val.beq, beq_iff_eq] at h; exact congrArg Val.vBool h
  | .vInt a, .vInt b, h => by
      simp only [Val.beq, beq_iff_eq] at h; exact congrArg Val.vInt h
  | .vStr a, .vStr b, h => by
      simp only [Val.beq, beq_iff_eq] at h; exact congrArg Val.vStr h
  | .vList a, .vList b, h => by
      exact congrArg Val.vList (Val.eqList_of_beqList (by simpa [Val.beq] using h))
  | .vNone, .vBool _, h => by simp [Val.beq] at h
  | .vNone, .vInt _, h => by simp [Val.beq] at h
  | .vNone, .vStr _, h => by simp [Val.beq] at h
  | .vNone, .vList _, h => by simp [Val.beq] at h
  | .vBool _, .vNone, h => by simp [Val.beq] at h
  | .vBool _, .vInt _, h => by simp [Val.beq] at h
  | .vBool _, .vStr _, h => by simp [Val.beq] at h
  | .vBool _, .vList _, h => by simp [Val.beq] at h
  | .vInt _, .vNone, h => by simp [Val.beq] at h
  | .vInt _, .vBool _, h => by simp [Val.beq] at h
  | .vInt _, .vStr _, h => by simp [Val.beq] at h
  | .vInt _, .vList _, h => by simp [Val.beq] at h
  | .vStr _, .vNone, h => by simp [Val.beq] at h
  | .vStr _, .vBool _, h => by simp [Val.beq] at h
  | .vStr _, .vInt _, h => by simp [Val.beq] at h
  | .vStr _, .vList _, h => by simp [Val.beq] at h
  | .vList _, .vNone, h => by simp [Val.beq] at h
  | .vList _, .vBool _, h => by simp [Val.beq] at h
  | .vList _, .vInt _, h => by simp [Val.beq] at h
  | .vList _, .vStr _, h => by simp [Val.beq] at h

theorem Val.eqList_of_beqList : ∀ {xs ys : List Val}, Val.beqList xs ys = true → xs = ys
  | [], [], _ => rfl
  | x :: xs, y :: ys, h => by
      simp only [Val.beqList, Bool.and_eq_true] at h
      rw [Val.eq_of_beq h.1, Val.eqList_of_beqList h.2]
  | [], _ :: _, h => by simp [Val.beqList] at h
  | _ :: _, [], h => by simp [Val.beqList] at h
end

instance : DecidableEq Val := fun v w =>
  if h : Val.beq v w = true then
    isTrue (Val.eq_of_beq h)
  else
    isFalse (fun heq => h (heq ▸ Val.beq_refl v))

/-- Python truthiness of an embedded value (`bool(v)`). -/
def Val.truthy : Val → Bool
  | .vNone => false
  | .vBool b => b
  | .vInt n => n != 0
  | .vStr s => s ≠ ""
  | .vList xs => xs ≠ []

/-- An embedded Python dict: string keys in insertion order. -/
abbrev Dict := List (String × Val)

/-- `d[k]` lookup returning `none` when absent (`d.get(k)` in Python). -/
def Dict.get : Dict → String → Option Val
  | [], _ => none
  | (k₁, v₁) :: rest, k => if k₁ = k then some v₁ else Dict.get rest k

/-- `d.get(k, dflt)` in Python. -/
def Dict.getD (d : Dict) (k : String) (dflt : Val) : Val :=
  (Dict.get d k).getD dflt

/-- `k in d` in Python. -/
def Dict.hasKey (d : Dict) (k : String) : Bool :=
  (Dict.get d k).isSome

/-- Python dict assignment `d[k] = v`: overwrite in place if the key
exists (keeping its position), otherwise append at the end. -/
def Dict.set : Dict → String → Val → Dict
  | [], k, v => [(k, v)]
  | (k₁, v₁) :: rest, k, v =>
      if k₁ = k then (k, v) :: rest else (k₁, v₁) :: Dict.set rest k v

/-- Python `d.update(u)`: assign every key of `u`, in order, into `d`. -/
def Dict.update (d u : Dict) : Dict :=
  u.foldl (fun acc kv => Dict.set acc kv.1 kv.2) d

@[simp] theorem Dict.get_set_self (d : Dict) (k : String) (v : Val) :
    Dict.get (Dict.set d k v) k = some v := by
  induction d with
  | nil => simp [Dict.set, Dict.get]
  | cons p rest ih =>
      obtain ⟨k₁, v₁⟩ := p
      by_cases h : k₁ = k <;> simp [Dict.set, Dict.get, h, ih]

theorem Dict.get_set_of_ne (d : Dict) {k k' : String} (v : Val) (h : k ≠ k') :
    Dict.get (Dict.set d k v) k' = Dict.get d k' := by
  induction d with
  | nil => simp [Dict.set, Dict.get, h]
  | cons p rest ih =>
      obtain ⟨k₁, v₁⟩ := p
      by_cases h₁ : k₁ = k
      · subst h₁; simp [Dict.set, Dict.get, h]
      · simp [Dict.set, Dict.get, h₁, ih]

theorem Dict.hasKey_set (d : Dict) {k' : String} (k : String) (v : Val)
    (h : Dict.hasKey d k' = true) : Dict.hasKey (Dict.set d k v) k' = true := by
  by_cases hk : k = k'
  · subst hk; simp [Dict.hasKey, Dict.get_set_self]
  · simpa [Dict.hasKey, Dict.get_set_of_ne d v hk] using h

theorem Dict.hasKey_cons_false {k₁ : String} {v₁ : Val} {rest : Dict} {k : String}
    (h : Dict.hasKey ((k₁, v₁) :: rest) k = false) :
    k₁ ≠ k ∧ Dict.hasKey rest k = false := by
  by_cases hk : k₁ = k
  · simp [Dict.hasKey, Dict.get, hk] at h
  · refine ⟨hk, ?_⟩
    simpa [Dict.hasKey, Dict.get, hk] using h

/-- Merging leaves keys that the update does not mention untouched. -/
theorem Dict.get_update_not_has (u : Dict) : ∀ (d : Dict) (k : String),
    Dict.hasKey u k = false → Dict.get (Dict.update d u) k = Dict.get d k := by
  induction u with
  | nil => intro d k _; rfl
  | cons p rest ih =>
      intro d k h
      obtain ⟨k₁, v₁⟩ := p
      obtain ⟨hne, hrest⟩ := Dict.hasKey_cons_false h
      show Dict.get (Dict.update (Dict.set d k₁ v₁) rest) k = Dict.get d k
      rw [ih (Dict.set d k₁ v₁) k hrest, Dict.get_set_of_ne d v₁ hne]

theorem Dict.hasKey_false_of_not_mem (u : Dict) (k : String)
    (h : k ∉ u.map Prod.fst) : Dict.hasKey u k = false := by
  induction u with
  | nil => rfl
  | cons p rest ih =>
      obtain ⟨k₁, v₁⟩ := p
      simp only [List.map_cons, List.mem_cons, not_or] at h
      have : k₁ ≠ k := fun hk => h.1 hk.symm
      simpa [Dict.hasKey, Dict.get, this] using ih h.2

/-- Merging installs exactly the values of the update mapping: a key the
update carries (dict keys are distinct) ends up with the update value. -/
theorem Dict.get_update_nodup (u : Dict) : ∀ (d : Dict) (k : String) (v : Val),
    (u.map Prod.fst).Nodup → Dict.get u k = some v →
    Dict.get (Dict.update d u) k = some v := by
  induction u with
  | nil => intro d k v _ h; simp [Dict.get] at h
  | cons p rest ih =>
      intro d k v hnd hget
      obtain ⟨k₁, v₁⟩ := p
      simp only [List.map_cons, List.nodup_cons] at hnd
      by_cases hk : k₁ = k
      · subst hk
        have hv : v₁ = v := by simpa [Dict.get] using hget
        subst hv
        show Dict.get (Dict.update (Dict.set d k₁ v₁) rest) k₁ = some v₁
        rw [Dict.get_update_not_has rest _ _ (Dict.hasKey_false_of_not_mem rest k₁ hnd.1)]
        exact Dict.get_set_self d k₁ v₁
      · simp only [Dict.get, if_neg hk] at hget
        exact ih (Dict.set d k₁ v₁) k v hnd.2 hget

/-- Merging never removes a key. -/
theorem Dict.hasKey_update_left (u : Dict) : ∀ (d : Dict) (k : String),
    Dict.hasKey d k = true → Dict.hasKey (Dict.update d u) k = true := by
  induction u with
  | nil => intro d k h; exact h
  | cons p rest ih =>
      intro d k h
      exact ih (Dict.set d p.1 p.2) k (Dict.hasKey_set d p.1 p.2 h)

/-!
Engine data model, from src/engine.py.

Python raises exceptions; fallible operations are embedded as
`Except String`.  Node names and the "end" sentinel are strings; ids
generated by `uuid4()` are embedded as an abstract fresh-id supply: the
engine carries a counter `next_id` and every allocation returns the
counter and bumps it, which models the uuid guarantee that a fresh id
differs from every previously issued one.
-/

/-- One edge configuration dict, keeping exactly the four keys
`_resolve_next_node` reads.  `none` stands for an absent key (CPython
`edge_cfg.get` also maps a key explicitly set to `None` to the same
behavior as an absent key, which this embedding shares). -/
structure EdgeCfg where
  condition_key : Option String := none
  on_true : Option String := none
  on_false : Option String := none
  next : Option String := none
  deriving DecidableEq

/-- Tools receive the run state and either return a partial update or
raise (src/engine.py ToolFunc). -/
abbrev ToolFunc := Dict → Except String Dict

/-- The tool registry: name to function, insertion ordered. -/
abbrev Registry := List (String × ToolFunc)

/-- `ToolRegistry.register`: store or overwrite the mapping. -/
def registryRegister : Registry → String → ToolFunc → Registry
  | [], name, f => [(name, f)]
  | (n, g) :: rest, name, f =>
      if n = name then (name, f) :: rest else (n, g) :: registryRegister rest name f

/-- `ToolRegistry.get`: the tool, or a KeyError for an unregistered name. -/
def registryGet (reg : Registry) (name : String) : Except String ToolFunc :=
  match List.lookup name reg with
  | some f => .ok f
  | none => .error ("Tool " ++ name ++ " is not registered")

/-- `Graph` dataclass (src/engine.py). -/
structure Graph where
  graph_id : Nat
  nodes : List String
  start_node : String
  edges : List (String × EdgeCfg)
  deriving DecidableEq

/-- `NodeLogEntry` (src/models.py). -/
structure NodeLogEntry where
  node : String
  state : Dict
  deriving DecidableEq

/-- `RunRecord` dataclass (src/engine.py). -/
structure RunRecord where
  run_id : Nat
  graph_id : Nat
  status : String
  current_node : Option String
  state : Dict
  log : List NodeLogEntry
  error_message : Option String
  deriving DecidableEq

/-- The engine stores (`GraphEngine.graphs`, `GraphEngine.runs`) plus the
fresh-id counter standing in for `uuid4()`.  The tool registry is a field
of the Python object; here it is passed alongside, since it holds
functions and never changes during execution. -/
structure GraphEngine where
  graphs : List (Nat × Graph)
  runs : List (Nat × RunRecord)
  next_id : Nat
  deriving DecidableEq

/-- `bool(state.get(condition_key))`. -/
def truthyOpt : Option Val → Bool
  | none => false
  | some v => v.truthy

/-- `GraphEngine._resolve_next_node(edge_cfg, state)`.  The argument is
the `graph.edges.get(current, ...)` result; an absent edge behaves as
the empty dict, which is falsy and yields no successor.  Note that the
Python conditional expression evaluates only the taken branch, so only
the branch selected by the flag can raise a KeyError. -/
def resolveNextNode (cfg? : Option EdgeCfg) (state : Dict) : Except String (Option String) :=
  match cfg? with
  | none => .ok none
  | some cfg =>
    if cfg = {} then .ok none
    else
      match cfg.condition_key with
      | some ck =>
          let flag := truthyOpt (Dict.get state ck)
          if flag then
            match cfg.on_true with
            | some t => .ok (some t)
            | none => .error "KeyError: on_true"
          else
            match cfg.on_false with
            | some f => .ok (some f)
            | none => .error "KeyError: on_false"
      | none => .ok cfg.next

/-- Outcome of one iteration of the `while` loop in
`GraphEngine._execute_run`: an exception, a normal break, or a
transition to the next node.  Each constructor carries the run state and
log as they stand at that point. -/
inductive StepResult where
  | fail : String → Dict → List NodeLogEntry → StepResult
  | halt : Dict → List NodeLogEntry → StepResult
  | next : String → Dict → List NodeLogEntry → StepResult

/-- The body of the `while` loop in `_execute_run` for node `current`:
look the tool up, invoke it (`or` turning a falsy result into the empty
update is the identity here since tools return dicts), merge, append the
log snapshot, and resolve the successor from the post-merge state.
`fail` corresponds to an exception, `halt` to the
`if not next_node or next_node == "end": break`. -/
def execStep (reg : Registry) (g : Graph) (current : String) (state : Dict)
    (log : List NodeLogEntry) : StepResult :=
  match registryGet reg current with
  | .error msg => .fail msg state log
  | .ok tool =>
    match tool state with
    | .error msg => .fail msg state log
    | .ok u =>
      let merged := Dict.update state u
      let log' := log ++ [⟨current, merged⟩]
      match resolveNextNode (List.lookup current g.edges) merged with
      | .error msg => .fail msg merged log'
      | .ok none => .halt merged log'
      | .ok (some n) =>
          if n = "" ∨ n = "end" then .halt merged log' else .next n merged log'

/-- Result of `_execute_run` together with the data the surrounding
`try` of `run_graph` needs: on `err` the node that was current when the
exception was raised, and in both cases the state and log exactly as
accumulated. -/
inductive ExecOutcome where
  | ok : Dict → List NodeLogEntry → ExecOutcome
  | err : String → String → Dict → List NodeLogEntry → ExecOutcome
  deriving DecidableEq

/-- The run state an outcome carries. -/
def ExecOutcome.finalState : ExecOutcome → Dict
  | .ok st _ => st
  | .err _ _ st _ => st

/-- The log an outcome carries. -/
def ExecOutcome.finalLog : ExecOutcome → List NodeLogEntry
  | .ok _ lg => lg
  | .err _ _ _ lg => lg

/-- The `while current and steps < max_steps` loop of `_execute_run`,
with `fuel = max_steps - steps`: both a falsy (empty) current node and
an exhausted step budget leave the loop normally. -/
def execFrom (reg : Registry) (g : Graph) : Nat → String → Dict → List NodeLogEntry → ExecOutcome
  | 0, _, state, log => .ok state log
  | fuel + 1, current, state, log =>
    if current = "" then .ok state log
    else
      match execStep reg g current state log with
      | .fail msg st lg => .err msg current st lg
      | .halt st lg => .ok st lg
      | .next n st lg => execFrom reg g fuel n st lg

/-- `max_steps = 1000` in `_execute_run`. -/
def maxSteps : Nat := 1000

/-- `GraphEngine.create_graph`: validate the start node, then store the
graph under a fresh id.  The engine is returned unchanged when the
ValueError is raised, mirroring that the Python raise happens before any
mutation of `self.graphs`. -/
def create_graph (e : GraphEngine) (nodes : List String) (start_node : String)
    (edges : List (String × EdgeCfg)) : Except String Nat × GraphEngine :=
  if start_node ∈ nodes then
    let gid := e.next_id
    (.ok gid,
      { e with
        graphs := e.graphs ++ [(gid, ⟨gid, nodes, start_node, edges⟩)]
        next_id := e.next_id + 1 })
  else
    (.error "start_node must be one of the nodes", e)

/-- `GraphEngine.run_graph`: look the graph up (KeyError if absent,
leaving the engine untouched), build the run record, drive
`_execute_run` inside `try`, and convert an exception into
`status="error"` with the message, no rollback of state or log.  The
final record is what the run store holds, since the Python code stores
the record object before mutating it in place. -/
def run_graph (reg : Registry) (e : GraphEngine) (graph_id : Nat)
    (initial_state : Dict) : Except String RunRecord × GraphEngine :=
  match List.lookup graph_id e.graphs with
  | none => (.error ("Graph " ++ toString graph_id ++ " not found"), e)
  | some graph =>
    let run_id := e.next_id
    let outcome := execFrom reg graph maxSteps graph.start_node initial_state []
    let run : RunRecord :=
      match outcome with
      | .ok st lg =>
          { run_id := run_id, graph_id := graph_id, status := "completed"
            current_node := none, state := st, log := lg, error_message := none }
      | .err msg node st lg =>
          { run_id := run_id, graph_id := graph_id, status := "error"
            current_node := some node, state := st, log := lg
            error_message := some msg }
    (.ok run, { e with runs := e.runs ++ [(run_id, run)], next_id := e.next_id + 1 })

/-- `GraphEngine.get_run`: read-only lookup, KeyError when unknown. -/
def get_run (e : GraphEngine) (run_id : Nat) : Except String RunRecord :=
  match List.lookup run_id e.runs with
  | some r => .ok r
  | none => .error ("Run " ++ toString run_id ++ " not found")

/-!
Shipped tools, from src/tools.py.  Dynamic coercions are made explicit:
`pyToInt` is the `int(...)` constructor, `pyAsInt` the implicit
int-likeness demanded by slicing and integer comparison (bool counts as
int, str does not), `valAsStr` the demand that a value be a str (as
`.split()` makes), and `pySliceTo` is `xs[:n]` including the Python
semantics of a negative bound.
-/

/-- `str(v).split()` precondition: the value must be a str. -/
def valAsStr : Val → Except String String
  | .vStr s => .ok s
  | _ => .error "AttributeError: value has no attribute split"

/-- Iterating a value as a list of str (chunks and summaries are built
by the tools themselves as lists of str; any other shape raises). -/
def valAsStrList : Val → Except String (List String)
  | .vList xs =>
      xs.foldr
        (fun v acc => do
          let s ← valAsStr v
          let rest ← acc
          .ok (s :: rest))
        (.ok [])
  | _ => .error "TypeError: value is not a list of str"

/-- Digits of a decimal literal. -/
def parseDigits : List Char → Option Nat
  | [] => none
  | cs => cs.foldl
      (fun acc c => do
        let n ← acc
        if c.isDigit then some (n * 10 + (c.toNat - 48)) else none)
      (some 0)

/-- `int(s)` for a string: optional surrounding whitespace, optional
sign, decimal digits; anything else raises ValueError. -/
def parsePyInt (s : String) : Option Int := do
  let core := (s.data.dropWhile Char.isWhitespace).reverse.dropWhile Char.isWhitespace
      |>.reverse
  match core with
  | '-' :: rest => do
      let n ← parseDigits rest
      some (-(n : Int))
  | '+' :: rest => do
      let n ← parseDigits rest
      some (n : Int)
  | rest => do
      let n ← parseDigits rest
      some (n : Int)

/-- `int(v)`: ints pass through, bools coerce, strings parse (raising on
a non-numeric literal), anything else raises. -/
def pyToInt : Val → Except String Int
  | .vInt n => .ok n
  | .vBool b => .ok (if b then 1 else 0)
  | .vStr s =>
      match parsePyInt s with
      | some n => .ok n
      | none => .error "ValueError: invalid literal for int"
  | _ => .error "TypeError: int() argument has wrong type"

/-- A value used as a slice bound or compared with an int: only int and
bool are accepted (no string parsing there). -/
def pyAsInt : Val → Except String Int
  | .vInt n => .ok n
  | .vBool b => .ok (if b then 1 else 0)
  | _ => .error "TypeError: value cannot be interpreted as an integer"

/-- Worker for `pyStrSplit`: walk the characters, accumulating the
current word reversed; whitespace flushes it. -/
def pyStrSplitGo : List Char → List Char → List String
  | [], [] => []
  | [], acc => [String.mk acc.reverse]
  | c :: rest, acc =>
      if c.isWhitespace then
        match acc with
        | [] => pyStrSplitGo rest []
        | _ => String.mk acc.reverse :: pyStrSplitGo rest []
      else pyStrSplitGo rest (c :: acc)

/-- `s.split()`: split on whitespace runs, no empty words. -/
def pyStrSplit (s : String) : List String :=
  pyStrSplitGo s.data []

/-- `xs[:n]` for an int `n`: a negative bound counts from the end. -/
def pySliceTo {α : Type} (xs : List α) (n : Int) : List α :=
  if 0 ≤ n then xs.take n.toNat else xs.take (xs.length - (-n).toNat)

/-- `_simple_chunk_text(text, chunk_size)`: a zero step raises inside
`range`, a negative step makes `range(0, len(words), step)` empty, and a
positive step `c` yields the indices `0, c, 2c, ...` below `len(words)`
(`List.range' 0 count c` with `count = ceil(len/c)`), each contributing
the slice `words[i : i + c]` joined back with spaces. -/
def simple_chunk_text (text : String) (chunk_size : Int) : Except String (List String) :=
  let words := pyStrSplit text
  if chunk_size = 0 then .error "ValueError: range() arg 3 must not be zero"
  else if chunk_size < 0 then .ok []
  else
    let c := chunk_size.toNat
    let idxs := List.range' 0 ((words.length + c - 1) / c) c
    .ok (idxs.map (fun i => String.intercalate " " ((words.drop i).take c)))

/-- `split_text(state)`: chunk `state["text"]` (default the empty
string) into groups of `int(state["chunk_size"])` (default 50) words and
return the partial update carrying `chunks`. -/
def split_text (state : Dict) : Except String Dict := do
  let textV := Dict.getD state "text" (.vStr "")
  let chunk_size ← pyToInt (Dict.getD state "chunk_size" (.vInt 50))
  let text ← valAsStr textV
  let chunks ← simple_chunk_text text chunk_size
  .ok [("chunks", Val.vList (chunks.map Val.vStr))]

/-- `generate_summaries(state)`: keep the first
`int(state["per_chunk_summary_words"])` (default 20) words of every
chunk and return the partial update carrying `summaries`. -/
def generate_summaries (state : Dict) : Except String Dict := do
  let chunksV := Dict.getD state "chunks" (.vList [])
  let max_words ← pyToInt (Dict.getD state "per_chunk_summary_words" (.vInt 20))
  let chunks ← valAsStrList chunksV
  let summaries := chunks.map (fun chunk =>
    String.intercalate " " (pySliceTo (pyStrSplit chunk) max_words))
  .ok [("summaries", Val.vList (summaries.map Val.vStr))]

/-- `merge_summaries(state)`: join the summaries into `draft_summary`. -/
def merge_summaries (state : Dict) : Except String Dict := do
  let summariesV := Dict.getD state "summaries" (.vList [])
  let summaries ← valAsStrList summariesV
  .ok [("draft_summary", Val.vStr (String.intercalate " " summaries))]

/-- `refine_summary(state)` embedded with its side effect made explicit:
the first component of the result is the content of the caller-supplied
dict after the call (the function writes `final_summary` and
`is_summary_short_enough` into it in place before rebinding its local
name to a fresh dict), the second component is the dict it returns,
rebuilt from scratch from a fixed set of keys with `state.get` defaults
of None. -/
def refine_summary_full (state : Dict) : Except String (Dict × Dict) := do
  let draftV := Dict.getD state "draft_summary" (.vStr "")
  let limitV := Dict.getD state "summary_limit_words" (.vInt 40)
  let draft ← valAsStr draftV
  let words := pyStrSplit draft
  let limit ← pyAsInt limitV
  let final_summary := String.intercalate " " (pySliceTo words limit)
  let is_short_enough : Bool := (words.length : Int) ≤ limit
  let mutated :=
    Dict.set (Dict.set state "final_summary" (.vStr final_summary))
      "is_summary_short_enough" (.vBool is_short_enough)
  let ret : Dict :=
    [("text", Dict.getD mutated "text" .vNone),
     ("chunk_size", Dict.getD mutated "chunk_size" .vNone),
     ("per_chunk_summary_words", Dict.getD mutated "per_chunk_summary_words" .vNone),
     ("summary_limit_words", Dict.getD mutated "summary_limit_words" .vNone),
     ("final_summary", .vStr final_summary),
     ("is_summary_short_enough", .vBool is_short_enough),
     ("chunks", Dict.getD mutated "chunks" .vNone),
     ("summaries", Dict.getD mutated "summaries" .vNone),
     ("draft_summary", .vStr draft)]
  .ok (mutated, ret)

/-- `refine_summary` as the engine sees it through the registry: only
the returned dict feeds the merge. -/
def refine_summary (state : Dict) : Except String Dict :=
  (refine_summary_full state).map Prod.snd

/-- The registry populated by src/main.py. -/
def shippedRegistry : Registry :=
  registryRegister
    (registryRegister
      (registryRegister
        (registryRegister [] "split_text" split_text)
        "generate_summaries" generate_summaries)
      "merge_summaries" merge_summaries)
    "refine_summary" refine_summary

/-!
Structural lemmas about one loop iteration and about the loop.
-/

/-- Complete case analysis of one loop iteration. -/
theorem execStep_spec (reg : Registry) (g : Graph) (cur : String) (st : Dict)
    (log : List NodeLogEntry) :
    (∃ m, registryGet reg cur = .error m ∧ execStep reg g cur st log = .fail m st log) ∨
    (∃ tool, registryGet reg cur = .ok tool ∧
      ((∃ m, tool st = .error m ∧ execStep reg g cur st log = .fail m st log) ∨
       (∃ u, tool st = .ok u ∧
         ((∃ m, resolveNextNode (List.lookup cur g.edges) (Dict.update st u) = .error m ∧
              execStep reg g cur st log =
                .fail m (Dict.update st u) (log ++ [⟨cur, Dict.update st u⟩])) ∨
          (resolveNextNode (List.lookup cur g.edges) (Dict.update st u) = .ok none ∧
           execStep reg g cur st log =
             .halt (Dict.update st u) (log ++ [⟨cur, Dict.update st u⟩])) ∨
          (∃ n, resolveNextNode (List.lookup cur g.edges) (Dict.update st u) = .ok (some n) ∧
            (((n = "" ∨ n = "end") ∧ execStep reg g cur st log =
                .halt (Dict.update st u) (log ++ [⟨cur, Dict.update st u⟩])) ∨
             (¬(n = "" ∨ n = "end") ∧ execStep reg g cur st log =
                .next n (Dict.update st u) (log ++ [⟨cur, Dict.update st u⟩])))))))) := by
  cases hreg : registryGet reg cur with
  | error m => exact .inl ⟨m, rfl, by simp [execStep, hreg]⟩
  | ok tool =>
    refine .inr ⟨tool, rfl, ?_⟩
    cases htool : tool st with
    | error m => exact .inl ⟨m, rfl, by simp [execStep, hreg, htool]⟩
    | ok u =>
      refine .inr ⟨u, rfl, ?_⟩
      cases hres : resolveNextNode (List.lookup cur g.edges) (Dict.update st u) with
      | error m => exact .inl ⟨m, rfl, by simp [execStep, hreg, htool, hres]⟩
      | ok nxt =>
        cases nxt with
        | none => exact .inr (.inl ⟨rfl, by simp [execStep, hreg, htool, hres]⟩)
        | some n =>
          refine .inr (.inr ⟨n, rfl, ?_⟩)
          by_cases hn : n = "" ∨ n = "end"
          · exact .inl ⟨hn, by simp [execStep, hreg, htool, hres, hn]⟩
          · exact .inr ⟨hn, by simp [execStep, hreg, htool, hres, hn]⟩

/-- The loop only ever appends to the log. -/
theorem execFrom_log_extends (reg : Registry) (g : Graph) : ∀ (fuel : Nat) (cur : String)
    (st : Dict) (log : List NodeLogEntry),
    ∃ t, ExecOutcome.finalLog (execFrom reg g fuel cur st log) = log ++ t := by
  intro fuel
  induction fuel with
  | zero => intro cur st log; exact ⟨[], by simp [execFrom, ExecOutcome.finalLog]⟩
  | succ n ih =>
    intro cur st log
    by_cases hcur : cur = ""
    · exact ⟨[], by simp [execFrom, hcur, ExecOutcome.finalLog]⟩
    · rcases execStep_spec reg g cur st log with
        ⟨m, _, hstep⟩ |
        ⟨tool, _, ⟨m, _, hstep⟩ |
          ⟨u, _, ⟨m, _, hstep⟩ | ⟨_, hstep⟩ | ⟨nn, _, ⟨_, hstep⟩ | ⟨_, hstep⟩⟩⟩⟩
      · exact ⟨[], by simp [execFrom, hcur, hstep, ExecOutcome.finalLog]⟩
      · exact ⟨[], by simp [execFrom, hcur, hstep, ExecOutcome.finalLog]⟩
      · exact ⟨[⟨cur, Dict.update st u⟩],
          by simp [execFrom, hcur, hstep, ExecOutcome.finalLog]⟩
      · exact ⟨[⟨cur, Dict.update st u⟩],
          by simp [execFrom, hcur, hstep, ExecOutcome.finalLog]⟩
      · exact ⟨[⟨cur, Dict.update st u⟩],
          by simp [execFrom, hcur, hstep, ExecOutcome.finalLog]⟩
      · obtain ⟨t, ht⟩ := ih nn (Dict.update st u) (log ++ [⟨cur, Dict.update st u⟩])
        refine ⟨⟨cur, Dict.update st u⟩ :: t, ?_⟩
        simp only [execFrom, if_neg hcur, hstep, ht, List.append_assoc,
          List.singleton_append]

/-- The loop appends at most `fuel` log entries. -/
theorem execFrom_log_length (reg : Registry) (g : Graph) : ∀ (fuel : Nat) (cur : String)
    (st : Dict) (log : List NodeLogEntry),
    (ExecOutcome.finalLog (execFrom reg g fuel cur st log)).length ≤ log.length + fuel := by
  intro fuel
  induction fuel with
  | zero => intro cur st log; simp [execFrom, ExecOutcome.finalLog]
  | succ n ih =>
    intro cur st log
    by_cases hcur : cur = ""
    · simp [execFrom, hcur, ExecOutcome.finalLog]
    · rcases execStep_spec reg g cur st log with
        ⟨m, _, hstep⟩ |
        ⟨tool, _, ⟨m, _, hstep⟩ |
          ⟨u, _, ⟨m, _, hstep⟩ | ⟨_, hstep⟩ | ⟨nn, _, ⟨_, hstep⟩ | ⟨_, hstep⟩⟩⟩⟩
      · simp [execFrom, hcur, hstep, ExecOutcome.finalLog]
      · simp [execFrom, hcur, hstep, ExecOutcome.finalLog]
      · simp [execFrom, hcur, hstep, ExecOutcome.finalLog]
      · simp [execFrom, hcur, hstep, ExecOutcome.finalLog]
      · simp [execFrom, hcur, hstep, ExecOutcome.finalLog]
      · have := ih nn (Dict.update st u) (log ++ [⟨cur, Dict.update st u⟩])
        simp only [execFrom, if_neg hcur, hstep]
        simp only [List.length_append, List.length_singleton] at this
        omega

/-- A key present in the state stays present in the final state and in
the state snapshot of every log entry the loop appends. -/
theorem execFrom_keeps_key (reg : Registry) (g : Graph) (k : String) : ∀ (fuel : Nat)
    (cur : String) (st : Dict) (log : List NodeLogEntry),
    Dict.hasKey st k = true →
    Dict.hasKey (ExecOutcome.finalState (execFrom reg g fuel cur st log)) k = true ∧
    ∀ e ∈ ExecOutcome.finalLog (execFrom reg g fuel cur st log),
      e ∈ log ∨ Dict.hasKey e.state k = true := by
  intro fuel
  induction fuel with
  | zero =>
    intro cur st log hst
    refine ⟨by simpa [execFrom, ExecOutcome.finalState] using hst, ?_⟩
    intro e he
    exact .inl (by simpa [execFrom, ExecOutcome.finalLog] using he)
  | succ n ih =>
    intro cur st log hst
    by_cases hcur : cur = ""
    · refine ⟨by simpa [execFrom, hcur, ExecOutcome.finalState] using hst, ?_⟩
      intro e he
      exact .inl (by simpa [execFrom, hcur, ExecOutcome.finalLog] using he)
    · have hmerge : ∀ u : Dict, Dict.hasKey (Dict.update st u) k = true :=
        fun u => Dict.hasKey_update_left u st k hst
      rcases execStep_spec reg g cur st log with
        ⟨m, _, hstep⟩ |
        ⟨tool, _, ⟨m, _, hstep⟩ |
          ⟨u, _, ⟨m, _, hstep⟩ | ⟨_, hstep⟩ | ⟨nn, _, ⟨_, hstep⟩ | ⟨_, hstep⟩⟩⟩⟩
      · refine ⟨by simpa [execFrom, hcur, hstep, ExecOutcome.finalState] using hst, ?_⟩
        intro e he
        exact .inl (by simpa [execFrom, hcur, hstep, ExecOutcome.finalLog] using he)
      · refine ⟨by simpa [execFrom, hcur, hstep, ExecOutcome.finalState] using hst, ?_⟩
        intro e he
        exact .inl (by simpa [execFrom, hcur, hstep, ExecOutcome.finalLog] using he)
      · refine ⟨by simp [execFrom, hcur, hstep, ExecOutcome.finalState, hmerge u], ?_⟩
        intro e he
        simp only [execFrom, if_neg hcur, hstep, ExecOutcome.finalLog,
          List.mem_append, List.mem_singleton] at he
        rcases he with he | he
        · exact .inl he
        · exact .inr (by simpa [he] using hmerge u)
      · refine ⟨by simp [execFrom, hcur, hstep, ExecOutcome.finalState, hmerge u], ?_⟩
        intro e he
        simp only [execFrom, if_neg hcur, hstep, ExecOutcome.finalLog,
          List.mem_append, List.mem_singleton] at he
        rcases he with he | he
        · exact .inl he
        · exact .inr (by simpa [he] using hmerge u)
      · refine ⟨by simp [execFrom, hcur, hstep, ExecOutcome.finalState, hmerge u], ?_⟩
        intro e he
        simp only [execFrom, if_neg hcur, hstep, ExecOutcome.finalLog,
          List.mem_append, List.mem_singleton] at he
        rcases he with he | he
        · exact .inl he
        · exact .inr (by simpa [he] using hmerge u)
      · obtain ⟨hfin, hlog⟩ := ih nn (Dict.update st u) (log ++ [⟨cur, Dict.update st u⟩])
          (hmerge u)
        refine ⟨by simpa [execFrom, hcur, hstep] using hfin, ?_⟩
        intro e he
        have he' : e ∈ ExecOutcome.finalLog
            (execFrom reg g n nn (Dict.update st u) (log ++ [⟨cur, Dict.update st u⟩])) := by
          simpa [execFrom, hcur, hstep] using he
        rcases hlog e he' with hmem | hk
        · rcases List.mem_append.mp hmem with hmem | hmem
          · exact .inl hmem
          · exact .inr (by
              have : e = ⟨cur, Dict.update st u⟩ := by simpa using hmem
              simpa [this] using hmerge u)
        · exact .inr hk

/-- How `run_graph` packages a normally terminated loop. -/
theorem run_graph_ok (reg : Registry) (e : GraphEngine) (gid : Nat) (init : Dict)
    (g : Graph) (st : Dict) (lg : List NodeLogEntry)
    (hg : List.lookup gid e.graphs = some g)
    (hout : execFrom reg g maxSteps g.start_node init [] = .ok st lg) :
    run_graph reg e gid init =
      (.ok ⟨e.next_id, gid, "completed", none, st, lg, none⟩,
       ⟨e.graphs,
        e.runs ++ [(e.next_id, ⟨e.next_id, gid, "completed", none, st, lg, none⟩)],
        e.next_id + 1⟩) := by
  simp [run_graph, hg, hout]

/-- How `run_graph` packages a loop that raised. -/
theorem run_graph_err (reg : Registry) (e : GraphEngine) (gid : Nat) (init : Dict)
    (g : Graph) (m node : String) (st : Dict) (lg : List NodeLogEntry)
    (hg : List.lookup gid e.graphs = some g)
    (hout : execFrom reg g maxSteps g.start_node init [] = .err m node st lg) :
    run_graph reg e gid init =
      (.ok ⟨e.next_id, gid, "error", some node, st, lg, some m⟩,
       ⟨e.graphs,
        e.runs ++ [(e.next_id, ⟨e.next_id, gid, "error", some node, st, lg, some m⟩)],
        e.next_id + 1⟩) := by
  simp [run_graph, hg, hout]

/-- Looking a fresh key up in a store it was just appended to. -/
theorem lookup_append_fresh {β : Type} (gid : Nat) (g : β) : ∀ l : List (Nat × β),
    gid ∉ l.map Prod.fst → List.lookup gid (l ++ [(gid, g)]) = some g := by
  intro l
  induction l with
  | nil => intro _; simp [List.lookup]
  | cons p rest ih =>
      intro h
      simp only [List.map_cons, List.mem_cons, not_or] at h
      have hne : (gid == p.1) = false := by
        simp only [beq_eq_false_iff_ne, ne_eq]
        exact fun hk => h.1 hk
      simp [List.lookup, hne, ih h.2]

/-!
Concrete fixtures used by witnesses and counterexamples.
-/

/-- A tool that reports readiness. -/
def toolReady : ToolFunc := fun _ => .ok [("ready", Val.vBool true)]

/-- Registry with `toolReady` under node X. -/
def regReady : Registry := [("X", toolReady)]

/-- One node X whose conditional edge on `ready` either stops or loops. -/
def gReady : Graph := ⟨0, ["X"], "X", [("X", ⟨some "ready", some "end", some "X", none⟩)]⟩

/-- A tool that sets flag k true. -/
def toolK : ToolFunc := fun _ => .ok [("k", Val.vBool true)]

/-- Registry with `toolK` under node X. -/
def regK : Registry := [("X", toolK)]

/-- A conditional edge whose `on_false` branch field is absent. -/
def cfgK : EdgeCfg := ⟨some "k", some "end", none, none⟩

/-- Engine holding one graph whose node X has the `cfgK` edge. -/
def engK : GraphEngine := ⟨[(0, ⟨0, ["X"], "X", [("X", cfgK)]⟩)], [], 1⟩

/-- Engine holding a single-node graph for X with no edges. -/
def engX : GraphEngine := ⟨[(0, ⟨0, ["X"], "X", []⟩)], [], 1⟩

/-- A tool contributing nothing to the state. -/
def toolNoop : ToolFunc := fun _ => .ok []

/-- Registry with `toolNoop` under node A. -/
def regLoop : Registry := [("A", toolNoop)]

/-- One node A with an unconditional self-loop edge. -/
def gLoop : Graph := ⟨0, ["A"], "A", [("A", ⟨none, none, none, some "A"⟩)]⟩

/-- Engine holding the self-loop graph. -/
def engLoop : GraphEngine := ⟨[(0, gLoop)], [], 1⟩

/-- Single node A, no outgoing edge. -/
def gA : Graph := ⟨0, ["A"], "A", []⟩

/-- Engine holding the single-node graph for A. -/
def engA : GraphEngine := ⟨[(0, gA)], [], 1⟩

/-- A tool writing a = 1. -/
def toolA1 : ToolFunc := fun _ => .ok [("a", Val.vInt 1)]

/-- Registry where node A is registered but node B is not. -/
def regAB : Registry := [("A", toolA1)]

/-- Node A flows linearly into node B. -/
def gAB : Graph := ⟨0, ["A", "B"], "A", [("A", ⟨none, none, none, some "B"⟩)]⟩

/-- Engine holding the A-to-B graph. -/
def engAB : GraphEngine := ⟨[(0, gAB)], [], 1⟩

/-- Node E whose linear edge names the empty string as successor. -/
def gE : Graph := ⟨0, ["E"], "E", [("E", ⟨none, none, none, some ""⟩)]⟩

/-- Registry with `toolNoop` under node E. -/
def regE : Registry := [("E", toolNoop)]

/-- Engine holding the empty-successor graph. -/
def engE : GraphEngine := ⟨[(0, gE)], [], 1⟩

/-- An engine with no graphs and no runs. -/
def engEmpty : GraphEngine := ⟨[], [], 0⟩

/-- The self-loop run appends exactly one log entry per unit of fuel and
always terminates normally with an unchanged empty state. -/
theorem execFrom_loop (fuel : Nat) : ∀ log : List NodeLogEntry,
    execFrom regLoop gLoop fuel "A" [] log =
      .ok [] (log ++ List.replicate fuel ⟨"A", []⟩) := by
  induction fuel with
  | zero => intro log; simp [execFrom]
  | succ n ih =>
      intro log
      have h1 : execFrom regLoop gLoop (n + 1) "A" [] log =
          execFrom regLoop gLoop n "A" [] (log ++ [⟨"A", []⟩]) := rfl
      rw [h1, ih]
      simp [List.replicate_succ]

/-!
The claims.
-/

/-- Claim C1: the successor of every step is computed from the
post-merge state.  If the tool invoked for the current node returns an
update whose value at the conditional edge's `condition_key` is truthy,
the `on_true` branch is taken on that same step: the step halts
immediately when that branch is falsy or the sentinel "end", and
otherwise continues there, in both cases having logged the merged
state. -/
theorem claim1_conditional_sees_post_merge_state
    (reg : Registry) (g : Graph) (fuel : Nat) (cur : String) (st : Dict)
    (log : List NodeLogEntry) (tool : ToolFunc) (u : Dict) (cfg : EdgeCfg)
    (ck t : String) (v : Val)
    (hcur : cur ≠ "")
    (hreg : registryGet reg cur = .ok tool)
    (htool : tool st = .ok u)
    (hedge : List.lookup cur g.edges = some cfg)
    (hck : cfg.condition_key = some ck)
    (hot : cfg.on_true = some t)
    (hnd : (u.map Prod.fst).Nodup)
    (hget : Dict.get u ck = some v)
    (htr : v.truthy = true) :
    execFrom reg g (fuel + 1) cur st log =
      if t = "" ∨ t = "end"
      then ExecOutcome.ok (Dict.update st u) (log ++ [⟨cur, Dict.update st u⟩])
      else execFrom reg g fuel t (Dict.update st u) (log ++ [⟨cur, Dict.update st u⟩]) := by
  have hmerge : Dict.get (Dict.update st u) ck = some v :=
    Dict.get_update_nodup u st ck v hnd hget
  have hne : cfg ≠ {} := by
    intro h
    rw [h] at hck
    cases hck
  have hres : resolveNextNode (some cfg) (Dict.update st u) = .ok (some t) := by
    simp [resolveNextNode, hne, hck, hmerge, truthyOpt, htr, hot]
  have hstep : execStep reg g cur st log =
      if t = "" ∨ t = "end"
      then .halt (Dict.update st u) (log ++ [⟨cur, Dict.update st u⟩])
      else .next t (Dict.update st u) (log ++ [⟨cur, Dict.update st u⟩]) := by
    simp [execStep, hreg, htool, hedge, hres]
  by_cases ht : t = "" ∨ t = "end"
  · simp [execFrom, hcur, hstep, ht]
  · simp [execFrom, hcur, hstep, ht]

/-- Witness for C1: a node whose tool turns `ready` truthy and whose
conditional edge tests `ready` with on_true = "end" terminates the run
on that very step, with the post-merge state logged. -/
theorem claim1_witness :
    execFrom regReady gReady 1000 "X" [] [] =
      .ok [("ready", Val.vBool true)] [⟨"X", [("ready", Val.vBool true)]⟩] := by
  have h := claim1_conditional_sees_post_merge_state regReady gReady 999 "X" [] []
    toolReady [("ready", Val.vBool true)] ⟨some "ready", some "end", some "X", none⟩
    "ready" "end" (Val.vBool true) (by decide) rfl rfl rfl rfl rfl (by decide) rfl rfl
  exact h.trans (by decide)

/-- Claim C2 counterexample: a Conditional edge whose `on_false` branch
field is absent, on a run whose condition is truthy, is not a fatal
error: the run completes with no error, contradicting the claim that a
Conditional rule missing either branch field errors the run. -/
theorem claim2_cex_missing_branch_not_fatal :
    cfgK.condition_key = some "k" ∧ cfgK.on_false = none ∧
    ∃ run e', run_graph regK engK 0 [] = (.ok run, e') ∧
      run.status = "completed" ∧ run.error_message = none := by
  refine ⟨rfl, rfl,
    ⟨1, 0, "completed", none, [("k", Val.vBool true)],
      [⟨"X", [("k", Val.vBool true)]⟩], none⟩,
    ⟨engK.graphs,
      [(1, ⟨1, 0, "completed", none, [("k", Val.vBool true)],
        [⟨"X", [("k", Val.vBool true)]⟩], none⟩)], 2⟩,
    rfl, rfl, rfl⟩

/-- Claim C2 amended: resolving a Conditional edge fails exactly when
the branch field selected by the truthiness of the condition value is
absent; the other branch field is never consulted, so its absence alone
is not an error. -/
theorem claim2_amended_taken_branch_only (cfg : EdgeCfg) (state : Dict) (ck : String)
    (hck : cfg.condition_key = some ck) :
    (truthyOpt (Dict.get state ck) = true → cfg.on_true = none →
       resolveNextNode (some cfg) state = .error "KeyError: on_true") ∧
    (truthyOpt (Dict.get state ck) = true → ∀ t, cfg.on_true = some t →
       resolveNextNode (some cfg) state = .ok (some t)) ∧
    (truthyOpt (Dict.get state ck) = false → cfg.on_false = none →
       resolveNextNode (some cfg) state = .error "KeyError: on_false") ∧
    (truthyOpt (Dict.get state ck) = false → ∀ f, cfg.on_false = some f →
       resolveNextNode (some cfg) state = .ok (some f)) := by
  have hne : cfg ≠ {} := by
    intro h
    rw [h] at hck
    cases hck
  refine ⟨?_, ?_, ?_, ?_⟩
  · intro hflag hob
    simp [resolveNextNode, hne, hck, hflag, hob]
  · intro hflag t hob
    simp [resolveNextNode, hne, hck, hflag, hob]
  · intro hflag hob
    simp [resolveNextNode, hne, hck, hflag, hob]
  · intro hflag f hob
    simp [resolveNextNode, hne, hck, hflag, hob]

/-- Witness for the amended C2: with the condition truthy and `on_true`
absent, resolution raises the KeyError for on_true. -/
theorem claim2_witness :
    resolveNextNode (some ⟨some "k", none, some "X", none⟩) [("k", Val.vBool true)] =
      .error "KeyError: on_true" :=
  (claim2_amended_taken_branch_only ⟨some "k", none, some "X", none⟩
    [("k", Val.vBool true)] "k" rfl).1 rfl rfl

/-- Claim C3 counterexample: a run that ends in status error does not
have `current_node` cleared: the except branch of `run_graph` sets the
status and message but leaves `current_node` at the failing node. -/
theorem claim3_cex_error_run_keeps_current_node :
    ∃ run e', run_graph [] engX 0 [] = (.ok run, e') ∧
      run.status = "error" ∧ run.current_node = some "X" ∧ run.current_node ≠ none := by
  refine ⟨⟨1, 0, "error", some "X", [], [], some "Tool X is not registered"⟩,
    ⟨engX.graphs,
      [(1, ⟨1, 0, "error", some "X", [], [], some "Tool X is not registered"⟩)], 2⟩,
    rfl, rfl, rfl, by decide⟩

/-- Claim C3 amended: `current_node` is cleared (None) on normal
termination with status completed; a run whose status is error instead
keeps `current_node` pointing at the node that was executing when the
failure was raised. -/
theorem claim3_amended_terminal_current_node
    (reg : Registry) (e : GraphEngine) (gid : Nat) (init : Dict)
    (run : RunRecord) (e' : GraphEngine)
    (h : run_graph reg e gid init = (.ok run, e')) :
    (run.status = "completed" → run.current_node = none) ∧
    (run.status = "error" → run.current_node.isSome = true) := by
  cases hg : List.lookup gid e.graphs with
  | none =>
      simp only [run_graph, hg, Prod.mk.injEq] at h
      cases h.1
  | some graph =>
      cases hout : execFrom reg graph maxSteps graph.start_node init [] with
      | ok st lg =>
          have := run_graph_ok reg e gid init graph st lg hg hout
          rw [this, Prod.mk.injEq] at h
          have hrun := Except.ok.inj h.1
          subst hrun
          simp
      | err m node st lg =>
          have := run_graph_err reg e gid init graph m node st lg hg hout
          rw [this, Prod.mk.injEq] at h
          have hrun := Except.ok.inj h.1
          subst hrun
          simp

/-- Witness for the amended C3: the erroring run on the unregistered
node X has its current node set (not cleared), while the completed-case
implication is vacuous there. -/
theorem claim3_witness :
    ((⟨1, 0, "error", some "X", [], [], some "Tool X is not registered"⟩ : RunRecord).status
        = "completed" →
      (⟨1, 0, "error", some "X", [], [], some "Tool X is not registered"⟩ : RunRecord).current_node
        = none) ∧
    ((⟨1, 0, "error", some "X", [], [], some "Tool X is not registered"⟩ : RunRecord).status
        = "error" →
      ((⟨1, 0, "error", some "X", [], [], some "Tool X is not registered"⟩ : RunRecord).current_node).isSome
        = true) :=
  claim3_amended_terminal_current_node [] engX 0 [] _ _ rfl

/-- Claim C4: the self-loop graph with no exit condition halts after
exactly 1000 node executions, log length 1000, status completed (the
step cap is silent success, not an error); and in general every run
executes at most MAX_STEPS = 1000 steps, so the log never exceeds 1000
entries. -/
theorem claim4_step_cap :
    (∃ run e', run_graph regLoop engLoop 0 [] = (.ok run, e') ∧
       run.status = "completed" ∧ run.log.length = 1000) ∧
    (∀ (reg : Registry) (e : GraphEngine) (gid : Nat) (init : Dict)
       (run : RunRecord) (e' : GraphEngine),
       run_graph reg e gid init = (.ok run, e') → run.log.length ≤ 1000) := by
  constructor
  · have hout : execFrom regLoop gLoop maxSteps "A" [] [] =
        .ok [] (List.replicate 1000 ⟨"A", []⟩) := execFrom_loop 1000 []
    have hrg := run_graph_ok regLoop engLoop 0 [] gLoop []
      (List.replicate 1000 ⟨"A", []⟩) rfl hout
    exact ⟨_, _, hrg, rfl, by rw [List.length_replicate]⟩
  · intro reg e gid init run e' h
    cases hg : List.lookup gid e.graphs with
    | none =>
        simp only [run_graph, hg, Prod.mk.injEq] at h
        cases h.1
    | some graph =>
        have hlen := execFrom_log_length reg graph maxSteps graph.start_node init []
        cases hout : execFrom reg graph maxSteps graph.start_node init [] with
        | ok st lg =>
            have hrg := run_graph_ok reg e gid init graph st lg hg hout
            rw [hrg, Prod.mk.injEq] at h
            have hrun := Except.ok.inj h.1
            subst hrun
            rw [hout] at hlen
            simpa [ExecOutcome.finalLog, maxSteps] using hlen
        | err m node st lg =>
            have hrg := run_graph_err reg e gid init graph m node st lg hg hout
            rw [hrg, Prod.mk.injEq] at h
            have hrun := Except.ok.inj h.1
            subst hrun
            rw [hout] at hlen
            simpa [ExecOutcome.finalLog, maxSteps] using hlen

/-- Witness for C4: a one-step run also respects the 1000-entry bound. -/
theorem claim4_witness :
    (⟨1, 0, "completed", none, [], [⟨"A", []⟩], none⟩ : RunRecord).log.length ≤ 1000 :=
  claim4_step_cap.2 regLoop engA 0 []
    ⟨1, 0, "completed", none, [], [⟨"A", []⟩], none⟩
    ⟨engA.graphs, [(1, ⟨1, 0, "completed", none, [], [⟨"A", []⟩], none⟩)], 2⟩ rfl

/-- Claim C5: the merge overwrites or inserts exactly the keys of the
partial update (dict keys are distinct) and leaves every other key
unchanged; it never removes a key, and along a whole run a key present
in the state stays present in the final state and in the snapshot of
every log entry the run appends. -/
theorem claim5_merge_frame :
    (∀ (d u : Dict) (k : String), Dict.hasKey u k = false →
       Dict.get (Dict.update d u) k = Dict.get d k) ∧
    (∀ (d u : Dict) (k : String) (v : Val), (u.map Prod.fst).Nodup →
       Dict.get u k = some v → Dict.get (Dict.update d u) k = some v) ∧
    (∀ (d u : Dict) (k : String), Dict.hasKey d k = true →
       Dict.hasKey (Dict.update d u) k = true) ∧
    (∀ (reg : Registry) (g : Graph) (fuel : Nat) (cur : String) (st : Dict)
       (log : List NodeLogEntry) (k : String), Dict.hasKey st k = true →
       Dict.hasKey (ExecOutcome.finalState (execFrom reg g fuel cur st log)) k = true ∧
       ∀ en ∈ ExecOutcome.finalLog (execFrom reg g fuel cur st log),
         en ∈ log ∨ Dict.hasKey en.state k = true) := by
  refine ⟨?_, ?_, ?_, ?_⟩
  · intro d u k h
    exact Dict.get_update_not_has u d k h
  · intro d u k v hnd hget
    exact Dict.get_update_nodup u d k v hnd hget
  · intro d u k h
    exact Dict.hasKey_update_left u d k h
  · intro reg g fuel cur st log k h
    exact execFrom_keeps_key reg g k fuel cur st log h

/-- Witness for C5: merging an update that only carries b leaves a
untouched, installs b, and keeps a present. -/
theorem claim5_witness :
    Dict.get (Dict.update [("a", Val.vInt 1)] [("b", Val.vInt 2)]) "a" =
      some (Val.vInt 1) ∧
    Dict.get (Dict.update [("a", Val.vInt 1)] [("b", Val.vInt 2)]) "b" =
      some (Val.vInt 2) ∧
    Dict.hasKey (Dict.update [("a", Val.vInt 1)] [("a", Val.vInt 2)]) "a" = true :=
  ⟨claim5_merge_frame.1 [("a", Val.vInt 1)] [("b", Val.vInt 2)] "a" rfl,
   claim5_merge_frame.2.1 [("a", Val.vInt 1)] [("b", Val.vInt 2)] "b" (Val.vInt 2)
     (by decide) rfl,
   claim5_merge_frame.2.2.1 [("a", Val.vInt 1)] [("a", Val.vInt 2)] "a" rfl⟩

/-- Claim C6: creating a graph whose start node is not among the nodes
fails with the ValueError and stores nothing (the engine is unchanged);
otherwise creation succeeds and returns a fresh id distinct from every
previously issued graph and run id, under which the graph is stored. -/
theorem claim6_create_graph_validation
    (e : GraphEngine) (nodes : List String) (start_node : String)
    (edges : List (String × EdgeCfg)) :
    (start_node ∉ nodes →
       create_graph e nodes start_node edges =
         (.error "start_node must be one of the nodes", e)) ∧
    (start_node ∈ nodes →
       (∀ p ∈ e.graphs, p.1 < e.next_id) →
       (∀ p ∈ e.runs, p.1 < e.next_id) →
       ∃ gid e', create_graph e nodes start_node edges = (.ok gid, e') ∧
         gid ∉ e.graphs.map Prod.fst ∧ gid ∉ e.runs.map Prod.fst ∧
         List.lookup gid e'.graphs = some ⟨gid, nodes, start_node, edges⟩ ∧
         e'.runs = e.runs) := by
  constructor
  · intro h
    simp [create_graph, h]
  · intro h hg hr
    have hfrg : e.next_id ∉ e.graphs.map Prod.fst := by
      intro hmem
      obtain ⟨p, hp, hpe⟩ := List.mem_map.mp hmem
      exact absurd (hpe ▸ hg p hp) (lt_irrefl _)
    have hfrr : e.next_id ∉ e.runs.map Prod.fst := by
      intro hmem
      obtain ⟨p, hp, hpe⟩ := List.mem_map.mp hmem
      exact absurd (hpe ▸ hr p hp) (lt_irrefl _)
    refine ⟨e.next_id,
      ⟨e.graphs ++ [(e.next_id, ⟨e.next_id, nodes, start_node, edges⟩)],
        e.runs, e.next_id + 1⟩, ?_, hfrg, hfrr, ?_, rfl⟩
    · simp [create_graph, h]
    · exact lookup_append_fresh e.next_id _ e.graphs hfrg

/-- Witness for C6: on the empty engine, creating a single-node graph
succeeds with a fresh id; with the start node outside the node set,
creation is rejected and the engine is unchanged. -/
theorem claim6_witness :
    (create_graph engEmpty ["A"] "B" [] =
      (.error "start_node must be one of the nodes", engEmpty)) ∧
    ∃ gid e', create_graph engEmpty ["A"] "A" [] = (.ok gid, e') ∧
      gid ∉ engEmpty.graphs.map Prod.fst ∧ gid ∉ engEmpty.runs.map Prod.fst ∧
      List.lookup gid e'.graphs = some ⟨gid, ["A"], "A", []⟩ ∧
      e'.runs = engEmpty.runs :=
  ⟨(claim6_create_graph_validation engEmpty ["A"] "B" []).1 (by decide),
   (claim6_create_graph_validation engEmpty ["A"] "A" []).2 (by decide)
     (by intro p hp; cases hp) (by intro p hp; cases hp)⟩

/-- Claim C7: when the graph exists, run_graph never propagates a
failure raised during tool lookup, tool invocation or edge resolution:
it returns a record, and if the loop raised, that record has status
error, the message of the failure, and the state and log exactly as
accumulated up to the failing step. -/
theorem claim7_failures_contained
    (reg : Registry) (e : GraphEngine) (gid : Nat) (init : Dict) (g : Graph)
    (hg : List.lookup gid e.graphs = some g) :
    (∃ run e', run_graph reg e gid init = (.ok run, e')) ∧
    (∀ m node st lg,
       execFrom reg g maxSteps g.start_node init [] = .err m node st lg →
       ∃ e', run_graph reg e gid init =
         (.ok ⟨e.next_id, gid, "error", some node, st, lg, some m⟩, e')) := by
  constructor
  · cases hout : execFrom reg g maxSteps g.start_node init [] with
    | ok st lg => exact ⟨_, _, run_graph_ok reg e gid init g st lg hg hout⟩
    | err m node st lg => exact ⟨_, _, run_graph_err reg e gid init g m node st lg hg hout⟩
  · intro m node st lg hout
    exact ⟨_, run_graph_err reg e gid init g m node st lg hg hout⟩

/-- Witness for C7: node A runs and writes a = 1, then the unregistered
node B fails; the returned record is an error record that keeps the
first step in state and log. -/
theorem claim7_witness :
    ∃ e', run_graph regAB engAB 0 [] =
      (.ok ⟨1, 0, "error", some "B", [("a", Val.vInt 1)],
        [⟨"A", [("a", Val.vInt 1)]⟩], some "Tool B is not registered"⟩, e') :=
  (claim7_failures_contained regAB engAB 0 [] gAB rfl).2
    "Tool B is not registered" "B" [("a", Val.vInt 1)]
    [⟨"A", [("a", Val.vInt 1)]⟩] rfl

/-- Inverting a successful Except bind. -/
theorem except_bind_ok {α β : Type} {x : Except String α} {f : α → Except String β}
    {b : β} (h : (x >>= f) = .ok b) : ∃ a, x = .ok a ∧ f a = .ok b := by
  cases x with
  | error m => cases h
  | ok a => exact ⟨a, rfl, h⟩

/-- A successful split_text returns a partial update carrying exactly
the key chunks. -/
theorem split_text_keys (st d : Dict) (h : split_text st = .ok d) :
    d.map Prod.fst = ["chunks"] := by
  simp only [split_text] at h
  obtain ⟨cs, h1, h⟩ := except_bind_ok h
  obtain ⟨text, h2, h⟩ := except_bind_ok h
  obtain ⟨chunks, h3, h⟩ := except_bind_ok h
  cases h
  rfl

/-- A successful generate_summaries returns a partial update carrying
exactly the key summaries. -/
theorem generate_summaries_keys (st d : Dict) (h : generate_summaries st = .ok d) :
    d.map Prod.fst = ["summaries"] := by
  simp only [generate_summaries] at h
  obtain ⟨mw, h1, h⟩ := except_bind_ok h
  obtain ⟨chunks, h2, h⟩ := except_bind_ok h
  cases h
  rfl

/-- A successful merge_summaries returns a partial update carrying
exactly the key draft_summary. -/
theorem merge_summaries_keys (st d : Dict) (h : merge_summaries st = .ok d) :
    d.map Prod.fst = ["draft_summary"] := by
  simp only [merge_summaries] at h
  obtain ⟨summaries, h1, h⟩ := except_bind_ok h
  cases h
  rfl

/-- Shape of a successful refine_summary call: the caller dict ends up
with `final_summary` and `is_summary_short_enough` written into it, and
the returned dict is the fixed nine-key rebuild. -/
theorem refine_summary_full_ok (st mutd ret : Dict)
    (h : refine_summary_full st = .ok (mutd, ret)) :
    ∃ fs se, mutd = Dict.set (Dict.set st "final_summary" (Val.vStr fs))
        "is_summary_short_enough" (Val.vBool se) ∧
      ret.map Prod.fst =
        ["text", "chunk_size", "per_chunk_summary_words", "summary_limit_words",
         "final_summary", "is_summary_short_enough", "chunks", "summaries",
         "draft_summary"] := by
  simp only [refine_summary_full] at h
  obtain ⟨draft, h1, h⟩ := except_bind_ok h
  obtain ⟨limit, h2, h⟩ := except_bind_ok h
  have h0 := Except.ok.inj h
  rw [Prod.mk.injEq] at h0
  refine ⟨String.intercalate " " (pySliceTo (pyStrSplit draft) limit),
    decide ((pyStrSplit draft).length ≤ limit), h0.1.symm, ?_⟩
  rw [← h0.2]
  rfl

/-- Claim C8 counterexample: refine_summary does not leave its input
dict alone.  Called on the empty dict, the caller dict afterwards holds
the two keys the function wrote into it in place, so the return value is
not its sole channel of state change. -/
theorem claim8_cex_refine_summary_mutates_input :
    (refine_summary_full []).map Prod.fst =
      .ok [("final_summary", Val.vStr ""), ("is_summary_short_enough", Val.vBool true)] ∧
    Dict.get ([] : Dict) "final_summary" = none ∧
    Dict.get [("final_summary", Val.vStr ""), ("is_summary_short_enough", Val.vBool true)]
      "final_summary" = some (Val.vStr "") ∧
    ([("final_summary", Val.vStr ""), ("is_summary_short_enough", Val.vBool true)] : Dict)
      ≠ ([] : Dict) :=
  ⟨rfl, rfl, rfl, by decide⟩

/-- Claim C8 amended: split_text, generate_summaries and merge_summaries
satisfy the tool contract, returning single-key partial updates and
leaving the input alone (they are read-only in the source); but
refine_summary violates it: on success it has written `final_summary`
and `is_summary_short_enough` into the caller dict in place (leaving
every other key of the input unchanged), and the dict it returns is a
full nine-key rebuild of the state rather than a partial update. -/
theorem claim8_amended_tool_contract :
    (∀ st d, split_text st = .ok d → d.map Prod.fst = ["chunks"]) ∧
    (∀ st d, generate_summaries st = .ok d → d.map Prod.fst = ["summaries"]) ∧
    (∀ st d, merge_summaries st = .ok d → d.map Prod.fst = ["draft_summary"]) ∧
    (∀ st mutd ret, refine_summary_full st = .ok (mutd, ret) →
       (∀ k, k ≠ "final_summary" → k ≠ "is_summary_short_enough" →
          Dict.get mutd k = Dict.get st k) ∧
       Dict.hasKey mutd "final_summary" = true ∧
       Dict.hasKey mutd "is_summary_short_enough" = true ∧
       ret.map Prod.fst =
         ["text", "chunk_size", "per_chunk_summary_words", "summary_limit_words",
          "final_summary", "is_summary_short_enough", "chunks", "summaries",
          "draft_summary"]) := by
  refine ⟨split_text_keys, generate_summaries_keys, merge_summaries_keys, ?_⟩
  intro st mutd ret h
  obtain ⟨fs, se, hmut, hret⟩ := refine_summary_full_ok st mutd ret h
  subst hmut
  refine ⟨?_, ?_, ?_, hret⟩
  · intro k hk1 hk2
    rw [Dict.get_set_of_ne _ _ (fun hb => hk2 hb.symm),
      Dict.get_set_of_ne _ _ (fun hb => hk1 hb.symm)]
  · have : Dict.get (Dict.set (Dict.set st "final_summary" (Val.vStr fs))
        "is_summary_short_enough" (Val.vBool se)) "final_summary" = some (Val.vStr fs) := by
      rw [Dict.get_set_of_ne _ _ (by decide)]
      exact Dict.get_set_self _ _ _
    simp [Dict.hasKey, this]
  · simp [Dict.hasKey, Dict.get_set_self]

/-- Witness for the amended C8: concrete runs of the four tools showing
the stated shapes. -/
theorem claim8_witness :
    [("chunks", Val.vList [Val.vStr "a"])].map Prod.fst = ["chunks"] ∧
    ((∀ k, k ≠ "final_summary" → k ≠ "is_summary_short_enough" →
        Dict.get [("final_summary", Val.vStr ""), ("is_summary_short_enough", Val.vBool true)] k =
          Dict.get ([] : Dict) k) ∧
      Dict.hasKey [("final_summary", Val.vStr ""), ("is_summary_short_enough", Val.vBool true)]
        "final_summary" = true ∧
      Dict.hasKey [("final_summary", Val.vStr ""), ("is_summary_short_enough", Val.vBool true)]
        "is_summary_short_enough" = true ∧
      ([("text", Val.vNone), ("chunk_size", Val.vNone), ("per_chunk_summary_words", Val.vNone),
        ("summary_limit_words", Val.vNone), ("final_summary", Val.vStr ""),
        ("is_summary_short_enough", Val.vBool true), ("chunks", Val.vNone),
        ("summaries", Val.vNone), ("draft_summary", Val.vStr "")] : Dict).map Prod.fst =
        ["text", "chunk_size", "per_chunk_summary_words", "summary_limit_words",
         "final_summary", "is_summary_short_enough", "chunks", "summaries",
         "draft_summary"]) :=
  ⟨claim8_amended_tool_contract.1 [("text", Val.vStr "a")]
      [("chunks", Val.vList [Val.vStr "a"])] rfl,
   claim8_amended_tool_contract.2.2.2 []
      [("final_summary", Val.vStr ""), ("is_summary_short_enough", Val.vBool true)]
      [("text", Val.vNone), ("chunk_size", Val.vNone), ("per_chunk_summary_words", Val.vNone),
       ("summary_limit_words", Val.vNone), ("final_summary", Val.vStr ""),
       ("is_summary_short_enough", Val.vBool true), ("chunks", Val.vNone),
       ("summaries", Val.vNone), ("draft_summary", Val.vStr "")] rfl⟩

/-- Claim C9: the log is append-only (later steps only extend it, never
alter existing entries), and the entry recorded for an executed node
carries that node together with the state exactly as it stood after that
node's update was merged in. -/
theorem claim9_log_append_only_snapshots :
    (∀ (reg : Registry) (g : Graph) (fuel : Nat) (cur : String) (st : Dict)
       (log : List NodeLogEntry),
       ∃ t, ExecOutcome.finalLog (execFrom reg g fuel cur st log) = log ++ t) ∧
    (∀ (reg : Registry) (g : Graph) (fuel : Nat) (cur : String) (st : Dict)
       (log : List NodeLogEntry) (tool : ToolFunc) (u : Dict),
       cur ≠ "" → registryGet reg cur = .ok tool → tool st = .ok u →
       ∃ t, ExecOutcome.finalLog (execFrom reg g (fuel + 1) cur st log) =
         log ++ ⟨cur, Dict.update st u⟩ :: t) := by
  constructor
  · exact execFrom_log_extends
  · intro reg g fuel cur st log tool u hcur hreg htool
    rcases execStep_spec reg g cur st log with
      ⟨m, hm, hstep⟩ |
      ⟨tool2, hreg2, ⟨m, hm, hstep⟩ |
        ⟨u2, hu2, ⟨m, hm, hstep⟩ | ⟨hres, hstep⟩ | ⟨nn, hres, ⟨hn, hstep⟩ | ⟨hn, hstep⟩⟩⟩⟩
    · rw [hm] at hreg
      cases hreg
    · rw [hreg2] at hreg
      have ht2 : tool2 = tool := Except.ok.inj hreg
      subst ht2
      rw [hm] at htool
      cases htool
    · rw [hreg2] at hreg
      have ht2 : tool2 = tool := Except.ok.inj hreg
      subst ht2
      rw [hu2] at htool
      have hu : u2 = u := Except.ok.inj htool
      subst hu
      exact ⟨[], by simp [execFrom, hcur, hstep, ExecOutcome.finalLog]⟩
    · rw [hreg2] at hreg
      have ht2 : tool2 = tool := Except.ok.inj hreg
      subst ht2
      rw [hu2] at htool
      have hu : u2 = u := Except.ok.inj htool
      subst hu
      exact ⟨[], by simp [execFrom, hcur, hstep, ExecOutcome.finalLog]⟩
    · rw [hreg2] at hreg
      have ht2 : tool2 = tool := Except.ok.inj hreg
      subst ht2
      rw [hu2] at htool
      have hu : u2 = u := Except.ok.inj htool
      subst hu
      exact ⟨[], by simp [execFrom, hcur, hstep, ExecOutcome.finalLog]⟩
    · rw [hreg2] at hreg
      have ht2 : tool2 = tool := Except.ok.inj hreg
      subst ht2
      rw [hu2] at htool
      have hu : u2 = u := Except.ok.inj htool
      subst hu
      obtain ⟨t, ht⟩ := execFrom_log_extends reg g fuel nn (Dict.update st u2)
        (log ++ [⟨cur, Dict.update st u2⟩])
      refine ⟨t, ?_⟩
      have hunf : ExecOutcome.finalLog (execFrom reg g (fuel + 1) cur st log) =
          ExecOutcome.finalLog (execFrom reg g fuel nn (Dict.update st u2)
            (log ++ [⟨cur, Dict.update st u2⟩])) := by
        simp [execFrom, hcur, hstep]
      rw [hunf, ht, List.append_assoc, List.singleton_append]

/-- Witness for C9: a step of the self-loop run logs exactly the node A
with the post-merge state. -/
theorem claim9_witness :
    ∃ t, ExecOutcome.finalLog (execFrom regLoop gLoop 1000 "A" [] []) =
      [] ++ ⟨"A", Dict.update [] []⟩ :: t :=
  claim9_log_append_only_snapshots.2 regLoop gLoop 999 "A" [] [] toolNoop []
    (by decide) rfl rfl

/-- Claim C10: a falsy successor value (the empty string) stops the loop
and the run terminates normally, exactly as an absent successor or the
"end" sentinel would: first, a step whose edge resolves to "" halts the
loop right there with the merged state and its log entry; second, a
normally stopped loop is packaged with status completed and cleared
current node. -/
theorem claim10_falsy_successor_stops :
    (∀ (reg : Registry) (g : Graph) (fuel : Nat) (cur : String) (st : Dict)
       (log : List NodeLogEntry) (tool : ToolFunc) (u : Dict),
       cur ≠ "" → registryGet reg cur = .ok tool → tool st = .ok u →
       resolveNextNode (List.lookup cur g.edges) (Dict.update st u) = .ok (some "") →
       execFrom reg g (fuel + 1) cur st log =
         .ok (Dict.update st u) (log ++ [⟨cur, Dict.update st u⟩])) ∧
    (∀ (reg : Registry) (e : GraphEngine) (gid : Nat) (init : Dict) (g : Graph)
       (st : Dict) (lg : List NodeLogEntry),
       List.lookup gid e.graphs = some g →
       execFrom reg g maxSteps g.start_node init [] = .ok st lg →
       ∃ e', run_graph reg e gid init =
         (.ok ⟨e.next_id, gid, "completed", none, st, lg, none⟩, e')) := by
  constructor
  · intro reg g fuel cur st log tool u hcur hreg htool hres
    have hstep : execStep reg g cur st log =
        .halt (Dict.update st u) (log ++ [⟨cur, Dict.update st u⟩]) := by
      simp [execStep, hreg, htool, hres]
    simp [execFrom, hcur, hstep]
  · intro reg e gid init g st lg hg hout
    exact ⟨_, run_graph_ok reg e gid init g st lg hg hout⟩

/-- Witness for C10: the one-node graph whose linear edge names "" as
successor completes normally after one step. -/
theorem claim10_witness :
    ∃ e', run_graph regE engE 0 [] =
      (.ok ⟨1, 0, "completed", none, [], [⟨"E", []⟩], none⟩, e') :=
  claim10_falsy_successor_stops.2 regE engE 0 [] gE [] [⟨"E", []⟩] rfl
    (claim10_falsy_successor_stops.1 regE gE 999 "E" [] [] toolNoop []
      (by decide) rfl rfl rfl)

end SAWE
